import Mathlib

/-!
Verification of the ML-Research-RAG-Assistant core against its specification.

This file gives a shallow embedding of the repository's deterministic core
(`src/citations.py`, `src/retrieval.py`, `src/router.py`, `src/chunking.py`,
`src/config.py`, `src/pipeline.py`) and proves or refutes the frozen claims
about it.  Text is modelled as `List Char` (Python `str`), Python `float`
similarity scores as `ℚ` (only order comparisons occur), and external
collaborators (the tokenizer, the hash, the vector store, the language model)
as explicit function parameters, exactly as the spec treats them.
-/

namespace Rag

/-- Python `str.strip()` whitespace set, restricted to the ASCII whitespace
characters actually reachable in this pipeline (space, TAB, LF, VT, FF, CR). -/
def isPySpace (c : Char) : Bool :=
  decide (c.toNat = 32 ∨ c.toNat = 9 ∨ c.toNat = 10 ∨ c.toNat = 11 ∨
    c.toNat = 12 ∨ c.toNat = 13)

/-- Python `str.strip()`: drop leading and trailing whitespace. -/
def pyStrip (s : List Char) : List Char :=
  ((s.dropWhile isPySpace).reverse.dropWhile isPySpace).reverse

/-- The decimal digit character for a value `d < 10` (used to model Python's
`str(int)` / f-string formatting of a non-negative integer). -/
def digitChar (d : Nat) : Char :=
  match d with
  | 0 => '0' | 1 => '1' | 2 => '2' | 3 => '3' | 4 => '4'
  | 5 => '5' | 6 => '6' | 7 => '7' | 8 => '8' | _ => '9'

/-- Most-significant-first decimal digits of `n`, fuelled so that the
definition is structural (fuel `n` is always sufficient since `n / 10 < n`). -/
def decimalDigitsAux : Nat → Nat → List Char
  | 0, _ => []
  | _, 0 => []
  | fuel + 1, n => decimalDigitsAux fuel (n / 10) ++ [digitChar (n % 10)]

/-- Python `str(n)` for a non-negative integer `n`. -/
def decimalDigits (n : Nat) : List Char :=
  if n = 0 then ['0'] else decimalDigitsAux n n

/-- Numeric value of a decimal digit character. -/
def digitVal (c : Char) : Nat := c.toNat - 48

/-- Python `int(s)` on a string of decimal digits. -/
def digitsVal (ds : List Char) : Nat :=
  ds.foldl (fun a c => a * 10 + digitVal c) 0

/-! ## Citation codec (`src/citations.py`)

The marker grammar is the regex `\[(?P<chunk_id>[0-9a-f]{12})\s+p\.(?P<page>\d+)\]`.
Because no character that can occur strictly inside a match (hex digit,
whitespace, `p`, `.`, decimal digit, `]`) is `[`, matches can never overlap,
and because each greedy repetition (`\s+`, `\d+`) is followed by a character
outside its class, maximal-munch matching needs no backtracking.  `tryMatch`
below is therefore an exact model of attempting the anchored pattern at the
head of the input, and the scan an exact model of `re.finditer`. -/

/-- The character class `[0-9a-f]` of the chunk-id field. -/
def isHexLower (c : Char) : Bool :=
  c.isDigit || ('a' ≤ c && c ≤ 'f')

/-- A parsed citation marker (dataclass `CitedChunk`). -/
structure CitedChunk where
  chunk_id : List Char
  page_number : Nat
deriving DecidableEq, Repr

/-- Attempt to match the citation-marker regex at the head of `s`; on success
return the captured chunk id, the page number, and the total length of the
match. -/
def tryMatch (s : List Char) : Option (List Char × Nat × Nat) :=
  match s with
  | [] => none
  | c :: r1 =>
    if c = '[' then
      let cid := r1.take 12
      if cid.length = 12 ∧ cid.all isHexLower then
        let sp := (r1.drop 12).takeWhile isPySpace
        if sp.length = 0 then none
        else
          match (r1.drop 12).dropWhile isPySpace with
          | 'p' :: '.' :: r3 =>
            let ds := r3.takeWhile Char.isDigit
            if ds.length = 0 then none
            else
              match r3.dropWhile Char.isDigit with
              | ']' :: _ => some (cid, digitsVal ds, 16 + sp.length + ds.length)
              | _ => none
          | _ => none
      else none
    else none

/-- Left-to-right scan extracting every non-overlapping match, resuming after
the end of each match (`re.finditer`).  The fuel strictly bounds the number of
scan steps; since every successful match consumes at least one character,
fuel equal to the length of the text is always sufficient. -/
def scanCitations : Nat → List Char → List CitedChunk
  | 0, _ => []
  | _, [] => []
  | fuel + 1, c :: cs =>
    match tryMatch (c :: cs) with
    | some (cid, p, len) => ⟨cid, p⟩ :: scanCitations fuel ((c :: cs).drop len)
    | none => scanCitations fuel cs

/-- `extract_citations` from `src/citations.py`. -/
def extract_citations (text : List Char) : List CitedChunk :=
  scanCitations text.length text

/-- `format_citation` from `src/citations.py`: `f"[{chunk_id} p.{page_number}]"`. -/
def format_citation (chunk_id : List Char) (page_number : Nat) : List Char :=
  '[' :: chunk_id ++ ' ' :: 'p' :: '.' :: decimalDigits page_number ++ [']']

/-- `citation_ids` from `src/citations.py` builds a `set` of the cited chunk
ids; the set is modelled as the duplicate-free list of ids in first-occurrence
order (membership and emptiness agree with the Python set). -/
def citation_ids (citations : List CitedChunk) : List (List Char) :=
  (citations.map CitedChunk.chunk_id).dedup

/-! ## Retrieval (`src/retrieval.py`)

Similarity scores are Python floats used only in order comparisons; they are
modelled as rationals. -/

/-- The metadata fields of a stored langchain `Document` that the pipeline
reads (`metadata.get(...)` may return `None`, hence `Option`). -/
structure Metadata where
  chunk_id : Option (List Char)
  source_file : Option (List Char)
  page_number : Option Nat
  section_name : Option (List Char)
deriving DecidableEq, Repr

/-- A langchain `Document`: page content plus metadata. -/
structure Document where
  page_content : List Char
  metadata : Metadata
deriving DecidableEq, Repr

/-- Dataclass `Retrieved`: a document with its similarity proxy. -/
structure Retrieved where
  doc : Document
  score : ℚ
deriving DecidableEq, Repr

/-- `should_abstain` from `src/retrieval.py`: abstain when nothing was
retrieved or `max(r.score for r in retrieved) < min_similarity`. -/
def should_abstain (retrieved : List Retrieved) (min_similarity : ℚ) : Bool :=
  match retrieved with
  | [] => true
  | r :: rs => decide ((rs.map Retrieved.score).foldl max r.score < min_similarity)

/-! ## Router (`src/router.py`)

The three patterns have the form `\b(kw₁|kw₂|…)\bi` under `re.I`.  Every
keyword begins and ends with a letter, so the edge `\b` assertions reduce to
"the adjacent character, when present, is not a word character".  The only
non-literal alternative is `vs\.?`; it is modelled exactly (including the
optional dot and the word boundary after it) by `vsSearch`. -/

/-- ASCII lowercasing as performed by case-insensitive regex matching. -/
def lowerChar (c : Char) : Char :=
  if 65 ≤ c.toNat ∧ c.toNat ≤ 90 then Char.ofNat (c.toNat + 32) else c

/-- Regex `\w` (word character), ASCII range: letters, digits, underscore. -/
def isWordChar (c : Char) : Bool :=
  decide ((65 ≤ c.toNat ∧ c.toNat ≤ 90) ∨ (97 ≤ c.toNat ∧ c.toNat ≤ 122) ∨
    (48 ≤ c.toNat ∧ c.toNat ≤ 57) ∨ c.toNat = 95)

/-- The literal keyword `kw` matches `q` at position `i` (case-insensitively). -/
def kwAt (q : List Char) (i : Nat) (kw : List Char) : Bool :=
  decide (i + kw.length ≤ q.length) &&
    (((q.drop i).take kw.length).zip kw).all fun p => lowerChar p.1 == p.2

/-- `\b` holds just before position `i` of `q`, for a match whose first
character is a word character. -/
def boundaryBefore (q : List Char) (i : Nat) : Bool :=
  i == 0 || !(isWordChar (q.getD (i - 1) ' '))

/-- `\b` holds just after position `j - 1` of `q`, for a match whose last
character is a word character. -/
def boundaryAfter (q : List Char) (j : Nat) : Bool :=
  decide (q.length ≤ j) || !(isWordChar (q.getD j ' '))

/-- The pattern `\bkw\b` matches somewhere in `q` (`re.search`). -/
def wordOccurs (q : List Char) (kw : List Char) : Bool :=
  (List.range (q.length + 1)).any fun i =>
    boundaryBefore q i && kwAt q i kw && boundaryAfter q (i + kw.length)

/-- Any of the listed word-bounded keywords matches somewhere in `q`. -/
def searchAny (q : List Char) (kws : List (List Char)) : Bool :=
  kws.any fun kw => wordOccurs q kw

/-- The alternative `\bvs\.?\b`: the letters `vs` at a left boundary, then
either a right boundary directly after the `s`, or a literal dot whose `\b`
requires the following character to be a word character. -/
def vsSearch (q : List Char) : Bool :=
  (List.range (q.length + 1)).any fun i =>
    boundaryBefore q i && kwAt q i ['v', 's'] &&
      (boundaryAfter q (i + 2) ||
        (q.getD (i + 2) ' ' == '.' && decide (i + 3 < q.length) &&
          isWordChar (q.getD (i + 3) ' ')))

/-- Keywords of `_VERIFY_PAT` in `src/router.py`. -/
def verifyKws : List (List Char) :=
  ["verify".toList, "is it true".toList, "does the paper claim".toList,
   "evidence for".toList, "support the claim".toList, "refute".toList]

/-- Literal keywords of `_COMPARE_PAT` in `src/router.py` (the `vs\.?`
alternative is handled by `vsSearch`). -/
def compareKws : List (List Char) :=
  ["compare".toList, "versus".toList, "difference".toList,
   "differences".toList, "similarities".toList]

/-- Keywords of `_METHOD_PAT` in `src/router.py`. -/
def methodKws : List (List Char) :=
  ["method card".toList, "summarize method".toList, "architecture".toList,
   "pipeline".toList, "training objective".toList]

/-- Dataclass `Route`. -/
structure Route where
  mode : String
deriving DecidableEq, Repr

/-- `route_query` from `src/router.py`: strip the question, then test the
three patterns in priority order, first match wins. -/
def route_query (question : List Char) : Route :=
  let q := pyStrip question
  if searchAny q verifyKws then ⟨"claim_verify"⟩
  else if searchAny q compareKws || vsSearch q then ⟨"compare"⟩
  else if searchAny q methodKws then ⟨"method_card"⟩
  else ⟨"qa"⟩

/-- Modelled from the spec (§4.4), for comparison with `route_query`: a
case-insensitive classifier with strict priority `claim_verify` > `compare` >
`method_card` > `qa`, first match wins, whose `compare` list contains the
plain keyword `vs`; "contains" is word-bounded containment, the grammar the
code fixes. -/
def spec_route (question : List Char) : Route :=
  let q := pyStrip question
  if searchAny q ["verify".toList, "is it true".toList,
      "does the paper claim".toList, "evidence for".toList,
      "support the claim".toList, "refute".toList] then ⟨"claim_verify"⟩
  else if searchAny q ["compare".toList, "vs".toList, "versus".toList,
      "difference".toList, "differences".toList, "similarities".toList] then
    ⟨"compare"⟩
  else if searchAny q ["method card".toList, "summarize method".toList,
      "architecture".toList, "pipeline".toList,
      "training objective".toList] then ⟨"method_card"⟩
  else ⟨"qa"⟩

/-! ## Configuration (`src/config.py`)

`load_config` parses `config/app.yaml` and checks only that an OpenAI key is
present in the environment when an OpenAI provider is configured.  The parsed
YAML dictionary is modelled by a record of the fields the application reads;
the environment lookup `os.getenv("OPENAI_API_KEY")` by an `Option String`
(`none` = unset), falsy when unset or empty. -/

/-- The fields of the parsed `config/app.yaml` consulted by the application
(providers for the startup check; the chunking parameters are carried along
unchecked, exactly as in the code). -/
structure RawConfig where
  embeddings_provider : String
  llm_provider : String
  chunk_tokens : Int
  chunk_overlap_tokens : Int
  min_chunk_tokens : Int
deriving DecidableEq, Repr

/-- Dataclass `AppConfig`. -/
structure AppConfig where
  raw : RawConfig
deriving DecidableEq, Repr

/-- `load_config` from `src/config.py`: raise (`.error`) only when an OpenAI
provider is configured and `OPENAI_API_KEY` is unset or empty; otherwise
return the configuration unchanged and unvalidated. -/
def load_config (raw : RawConfig) (openai_api_key : Option String) :
    Except String AppConfig :=
  if (raw.embeddings_provider == "openai" || raw.llm_provider == "openai") &&
      (match openai_api_key with
       | none => true
       | some s => s.isEmpty) then
    Except.error "Missing OPENAI_API_KEY in environment (.env)."
  else
    Except.ok ⟨raw⟩

/-! ## Answer orchestrator (`src/pipeline.py`)

`answer_question` is modelled with its effectful collaborators as explicit
inputs: the routed mode, the retrieved list, the configured similarity
threshold, and the raw text of the language model's response to the composed
prompt (router, retriever and language model are arbitrary functions of their
inputs, so their outputs are universally quantified parameters here). -/

/-- The fixed abstention sentence of `src/pipeline.py`. -/
def ABSTAIN_MSG : List Char :=
  "I cannot find evidence in the provided papers to answer that.".toList

/-- The serializable payload `_doc_to_payload` builds for each retrieved item. -/
structure RetrievedPayload where
  chunk_id : Option (List Char)
  source_file : Option (List Char)
  page_number : Option Nat
  section_name : Option (List Char)
  score : ℚ
  text : List Char
deriving DecidableEq, Repr

/-- The serializable payload built for each resolved cited chunk. -/
structure CitedPayload where
  chunk_id : List Char
  source_file : Option (List Char)
  page_number : Option Nat
  section_name : Option (List Char)
  text : List Char
deriving DecidableEq, Repr

/-- Dataclass `AnswerResult`. -/
structure AnswerResult where
  mode : String
  answer : List Char
  abstained : Bool
  retrieved : List RetrievedPayload
  cited_chunks : List CitedPayload
deriving DecidableEq, Repr

/-- `_doc_to_payload` from `src/pipeline.py`. -/
def docToPayload (r : Retrieved) : RetrievedPayload :=
  ⟨r.doc.metadata.chunk_id, r.doc.metadata.source_file,
   r.doc.metadata.page_number, r.doc.metadata.section_name,
   r.score, r.doc.page_content⟩

/-- Lookup in `retrieved_map = {r.doc.metadata.get("chunk_id"): r.doc ...}`:
a Python dict comprehension keeps the last document per chunk id. -/
def retrievedMapGet (retrieved : List Retrieved) (cid : List Char) :
    Option Document :=
  (retrieved.reverse.find? fun r =>
    decide (r.doc.metadata.chunk_id = some cid)).map Retrieved.doc

/-- `answer_question` from `src/pipeline.py`, with the collaborator outputs
(`route`, `retrieved`, the configured `min_similarity`, and the language
model's `response` text) as explicit inputs. -/
def answer_question (route : Route) (retrieved : List Retrieved)
    (min_similarity : ℚ) (response : List Char) : AnswerResult :=
  if should_abstain retrieved min_similarity then
    ⟨route.mode, ABSTAIN_MSG, true, retrieved.map docToPayload, []⟩
  else
    let cits := extract_citations response
    let cited_ids := citation_ids cits
    let cited_payload := cited_ids.filterMap fun cid =>
      match retrievedMapGet retrieved cid with
      | none => none
      | some d => some ⟨cid, d.metadata.source_file, d.metadata.page_number,
          d.metadata.section_name, d.page_content⟩
    if pyStrip response ≠ ABSTAIN_MSG ∧ cited_payload = [] then
      ⟨route.mode, ABSTAIN_MSG, true, retrieved.map docToPayload, []⟩
    else
      ⟨route.mode, response, false, retrieved.map docToPayload, cited_payload⟩

/-! ## Chunker (`src/chunking.py`)

The external tokenizer (`tiktoken.get_encoding("cl100k_base")`) is modelled
abstractly: an encoder from text to token ids together with the fixed byte
string of each token id; `decode` of a token list is the concatenation of the
tokens' strings.  The SHA-1-based id (`hashlib`, also external) is modelled by
an abstract function `H` from the concatenated update bytes to the
12-character digest prefix. -/

/-- Dataclass `PageText` from `src/ingest_pdf.py`. -/
structure PageText where
  file_path : List Char
  page_number : Nat
  text : List Char
  detected_headings : List (List Char)
deriving DecidableEq, Repr

/-- An abstract subword encoding: `encode` maps text to token ids and
`tokStr` gives each token id's fixed decoded string. -/
structure Encoding where
  encode : List Char → List Nat
  tokStr : Nat → List Char

/-- `enc.decode`: concatenation of the tokens' strings. -/
def decodeToks (enc : Encoding) (ts : List Nat) : List Char :=
  (ts.map enc.tokStr).flatten

/-- Dataclass `Chunk` (metadata dictionary flattened into fields). -/
structure Chunk where
  chunk_id : List Char
  text : List Char
  source_file : List Char
  source_path : List Char
  page_number : Nat
  section_name : List Char
  chunk_index : Nat
deriving DecidableEq, Repr

/-- `_stable_chunk_id` from `src/chunking.py`: the digest (abstracted by `H`)
of the concatenated UTF-8 updates
`file_path, str(page_number), section_name, str(idx), text`. -/
def _stable_chunk_id (H : List Char → List Char) (file_path : List Char)
    (page_number : Nat) (section_name : List Char) (idx : Nat)
    (text : List Char) : List Char :=
  H (file_path ++ decimalDigits page_number ++ section_name ++
     decimalDigits idx ++ text)

/-- `_pick_section_name` from `src/chunking.py`: first heading on the page if
any, else the carried-over previous section. -/
def _pick_section_name (prev_section : List Char)
    (headings : List (List Char)) : List Char :=
  match headings with
  | [] => prev_section
  | h :: _ => h

/-- Consume the maximal run of `(\.\d+)*` groups (each a dot followed by at
least one digit); fuelled, each consumed group has length at least 2 so fuel
equal to the input length is always sufficient. -/
def dotGroups : Nat → List Char → List Char
  | 0, s => s
  | fuel + 1, s =>
    match s with
    | '.' :: r =>
      if (r.takeWhile Char.isDigit).length = 0 then s
      else dotGroups fuel (r.dropWhile Char.isDigit)
    | _ => s

/-- `_clean_heading` from `src/chunking.py`: match the stripped heading
against `_heading_numbered = ^\s*(\d+(\.\d+)*)\s+(.+)$` and return the
stripped third group on success, the stripped heading otherwise.  (On the
stripped string the leading `\s*` is empty, and each greedy repetition is
followed by a character outside its class, so maximal munch is exact.) -/
def _clean_heading (h : List Char) : List Char :=
  let s := pyStrip h
  if (s.takeWhile Char.isDigit).length = 0 then s
  else
    let r1 := dotGroups s.length (s.dropWhile Char.isDigit)
    if (r1.takeWhile isPySpace).length = 0 then s
    else
      let rest := r1.dropWhile isPySpace
      if rest.length = 0 then s else pyStrip rest

/-- Python `file_path.split("/")[-1]`. -/
def lastPathComponent (p : List Char) : List Char :=
  p.foldl (fun acc c => if c = '/' then [] else acc ++ [c]) []

/-- The window end `end` computed by one iteration of the `chunk_pages`
loop: `end = min(start + chunk_tokens, len)`, re-extended to
`min(start + min_chunk_tokens, len)` when the window is shorter than
`min_chunk_tokens` and is not the final window. -/
def windowEnd (chunk_tokens min_chunk_tokens len start : Nat) : Nat :=
  if min (start + chunk_tokens) len - start < min_chunk_tokens ∧
      min (start + chunk_tokens) len ≠ len then
    min (start + min_chunk_tokens) len
  else min (start + chunk_tokens) len

/-- `enc.decode(window).strip()` for the window starting at `start`. -/
def windowText (enc : Encoding) (tokens : List Nat)
    (chunk_tokens min_chunk_tokens start : Nat) : List Char :=
  pyStrip (decodeToks enc ((tokens.drop start).take
    (windowEnd chunk_tokens min_chunk_tokens tokens.length start - start)))

/-- The `Chunk` record emitted by `chunk_pages` for a window. -/
def mkChunk (H : List Char → List Char) (file_path : List Char)
    (page_number : Nat) (section_name : List Char) (gidx : Nat)
    (text : List Char) : Chunk :=
  ⟨_stable_chunk_id H file_path page_number section_name gidx text,
   text, lastPathComponent file_path, file_path, page_number,
   section_name, gidx⟩

/-- The `while start < len(tokens)` loop of `chunk_pages`, for one page.
State: remaining fuel, `start`, and the global chunk counter.  Fuel-out
returns `none`, modelling the loop's potential non-termination; with a valid
configuration the loop makes strict progress, so fuel `tokens.length + 1`
never runs out (proved below).  Nat subtraction makes `end2 -
chunk_overlap_tokens` exactly Python's `max(0, end - chunk_overlap_tokens)`. -/
def chunkLoop (H : List Char → List Char) (enc : Encoding)
    (file_path : List Char) (page_number : Nat) (section_name : List Char)
    (chunk_tokens chunk_overlap_tokens min_chunk_tokens : Nat)
    (tokens : List Nat) : Nat → Nat → Nat → Option (List Chunk × Nat)
  | 0, _, _ => none
  | fuel + 1, start, gidx =>
    if start < tokens.length then
      let text := windowText enc tokens chunk_tokens min_chunk_tokens start
      let emitted : List Chunk :=
        if text = [] then []
        else [mkChunk H file_path page_number section_name gidx text]
      let gidx' := if text = [] then gidx else gidx + 1
      if windowEnd chunk_tokens min_chunk_tokens tokens.length start =
          tokens.length then
        some (emitted, gidx')
      else
        match chunkLoop H enc file_path page_number section_name chunk_tokens
            chunk_overlap_tokens min_chunk_tokens tokens fuel
            (windowEnd chunk_tokens min_chunk_tokens tokens.length start -
              chunk_overlap_tokens) gidx' with
        | none => none
        | some (rest, g) => some (emitted ++ rest, g)
    else some ([], gidx)

/-- The page fold of `chunk_pages`: threads the carried section heading and
the global chunk counter through the pages in order. -/
def chunkPagesAux (H : List Char → List Char) (enc : Encoding)
    (chunk_tokens chunk_overlap_tokens min_chunk_tokens : Nat) :
    List PageText → List Char → Nat → Option (List Chunk)
  | [], _, _ => some []
  | page :: rest, current_section, gidx =>
    let cur' := _pick_section_name current_section page.detected_headings
    let sectionName := _clean_heading cur'
    let tokens := enc.encode page.text
    if tokens.length = 0 then
      chunkPagesAux H enc chunk_tokens chunk_overlap_tokens min_chunk_tokens
        rest cur' gidx
    else
      match chunkLoop H enc page.file_path page.page_number sectionName
          chunk_tokens chunk_overlap_tokens min_chunk_tokens tokens
          (tokens.length + 1) 0 gidx with
      | none => none
      | some (cs, g) =>
        match chunkPagesAux H enc chunk_tokens chunk_overlap_tokens
            min_chunk_tokens rest cur' g with
        | none => none
        | some more => some (cs ++ more)

/-- `chunk_pages` from `src/chunking.py`. -/
def chunk_pages (H : List Char → List Char) (enc : Encoding)
    (pages : List PageText)
    (chunk_tokens chunk_overlap_tokens min_chunk_tokens : Nat) :
    Option (List Chunk) :=
  chunkPagesAux H enc chunk_tokens chunk_overlap_tokens min_chunk_tokens
    pages "Unknown".toList 0

/-- A sample instantiation of the abstract tokenizer for concrete
evaluations: every character is its own (one-character) token. -/
def sampleEnc : Encoding :=
  ⟨fun s => s.map Char.toNat, fun t => [Char.ofNat t]⟩

/-- A sample instantiation of the abstract digest function. -/
def sampleHash : List Char → List Char := fun l => l.take 12

/-- A sample page for concrete evaluations. -/
def samplePage : PageText := ⟨"a.pdf".toList, 1, "ab".toList, []⟩

/-- The chunks `chunk_pages` produces for the sample page with
`chunk_tokens = 1`, `chunk_overlap_tokens = 0`, `min_chunk_tokens = 1`. -/
def sampleChunks : List Chunk :=
  (chunk_pages sampleHash sampleEnc [samplePage] 1 0 1).getD []

/-! ## Helper lemmas -/

theorem foldl_max_lt_iff (l : List ℚ) (a m : ℚ) :
    l.foldl max a < m ↔ a < m ∧ ∀ x ∈ l, x < m := by
  induction l generalizing a with
  | nil => simp
  | cons b l ih =>
    simp only [List.foldl_cons, ih, max_lt_iff, List.mem_cons]
    constructor
    · rintro ⟨⟨ha, hb⟩, h⟩
      exact ⟨ha, fun x hx => by rcases hx with rfl | hx; exact hb; exact h x hx⟩
    · rintro ⟨ha, h⟩
      exact ⟨⟨ha, h b (Or.inl rfl)⟩, fun x hx => h x (Or.inr hx)⟩

theorem foldl_max_mem (l : List ℚ) (a : ℚ) :
    l.foldl max a = a ∨ l.foldl max a ∈ l := by
  induction l generalizing a with
  | nil => simp
  | cons b l ih =>
    simp only [List.foldl_cons, List.mem_cons]
    rcases ih (max a b) with h | h
    · rcases max_choice a b with hm | hm
      · exact Or.inl (h.trans hm)
      · exact Or.inr (Or.inl (h.trans hm))
    · exact Or.inr (Or.inr h)

theorem le_foldl_max (l : List ℚ) (a : ℚ) :
    a ≤ l.foldl max a ∧ ∀ x ∈ l, x ≤ l.foldl max a := by
  induction l generalizing a with
  | nil => simp
  | cons b l ih =>
    simp only [List.foldl_cons, List.mem_cons]
    refine ⟨le_trans (le_max_left a b) (ih (max a b)).1, fun x hx => ?_⟩
    rcases hx with rfl | hx
    · exact le_trans (le_max_right a x) (ih (max a x)).1
    · exact (ih (max a b)).2 x hx

theorem any_congr {α : Type} {l : List α} {p q : α → Bool}
    (h : ∀ a ∈ l, p a = q a) : l.any p = l.any q := by
  induction l with
  | nil => rfl
  | cons a l ih =>
    simp only [List.any_cons, h a (List.mem_cons_self a l),
      ih fun b hb => h b (List.mem_cons_of_mem a hb)]

theorem charOfNat_toNat {n : Nat} (h : n < 55296) : (Char.ofNat n).toNat = n := by
  have hv : n.isValidChar := Or.inl h
  simp [Char.ofNat, hv, Char.ofNatAux, Char.toNat, UInt32.toNat,
    BitVec.toNat_ofNatLt]

theorem lowerChar_toNat (c : Char) : (lowerChar c).toNat =
    if 65 ≤ c.toNat ∧ c.toNat ≤ 90 then c.toNat + 32 else c.toNat := by
  unfold lowerChar
  split
  · next hc => exact charOfNat_toNat (by omega)
  · rfl

theorem lowerChar_idem (c : Char) : lowerChar (lowerChar c) = lowerChar c := by
  by_cases hc : 65 ≤ c.toNat ∧ c.toNat ≤ 90
  · have h1 : (lowerChar c).toNat = c.toNat + 32 := by
      rw [lowerChar_toNat, if_pos hc]
    conv_lhs => rw [lowerChar]
    rw [if_neg]
    omega
  · have h1 : lowerChar c = c := by unfold lowerChar; rw [if_neg hc]
    rw [h1]
    exact h1

theorem isWordChar_lowerChar (c : Char) :
    isWordChar (lowerChar c) = isWordChar c := by
  unfold isWordChar
  rw [lowerChar_toNat c]
  apply decide_eq_decide.mpr
  by_cases hc : 65 ≤ c.toNat ∧ c.toNat ≤ 90
  · rw [if_pos hc]; omega
  · rw [if_neg hc]

theorem isPySpace_lowerChar (c : Char) :
    isPySpace (lowerChar c) = isPySpace c := by
  unfold isPySpace
  rw [lowerChar_toNat c]
  apply decide_eq_decide.mpr
  by_cases hc : 65 ≤ c.toNat ∧ c.toNat ≤ 90
  · rw [if_pos hc]; omega
  · rw [if_neg hc]

theorem isWordChar_dot : isWordChar '.' = false := by decide

theorem vsSearch_eq_wordOccurs (q : List Char) :
    vsSearch q = wordOccurs q ['v', 's'] := by
  unfold vsSearch wordOccurs
  apply any_congr
  intro i _
  rcases hb : boundaryBefore q i && kwAt q i ['v', 's'] with _ | _
  · simp
  · simp only [Bool.true_and]
    rcases harm : (q.getD (i + 2) ' ' == '.' && decide (i + 3 < q.length) &&
        isWordChar (q.getD (i + 3) ' ')) with _ | _
    · simp
    · have hdot : q.getD (i + 2) ' ' = '.' := by
        have := (Bool.and_eq_true _ _).mp harm
        exact eq_of_beq ((Bool.and_eq_true _ _).mp this.1).1
      have hba : boundaryAfter q (i + 2) = true := by
        unfold boundaryAfter
        rw [hdot, isWordChar_dot]
        simp
      simp [hba]

theorem all_congr {α : Type} {l : List α} {p q : α → Bool}
    (h : ∀ a ∈ l, p a = q a) : l.all p = l.all q := by
  induction l with
  | nil => rfl
  | cons a l ih =>
    simp only [List.all_cons, h a (List.mem_cons_self a l),
      ih fun b hb => h b (List.mem_cons_of_mem a hb)]

theorem route_query_eq_spec (q : List Char) : route_query q = spec_route q := by
  have hcmp : ∀ s, (searchAny s compareKws || vsSearch s) =
      searchAny s ["compare".toList, "vs".toList, "versus".toList,
        "difference".toList, "differences".toList, "similarities".toList] := by
    intro s
    simp only [searchAny, compareKws, List.any_cons, List.any_nil,
      vsSearch_eq_wordOccurs]
    have hvs : "vs".toList = ['v', 's'] := rfl
    rw [hvs]
    cases wordOccurs s "compare".toList <;>
      cases wordOccurs s ['v', 's'] <;> simp
  simp only [route_query, spec_route, hcmp, verifyKws, methodKws]

theorem getD_map_lowerChar (q : List Char) (i : Nat) :
    (q.map lowerChar).getD i ' ' = lowerChar (q.getD i ' ') := by
  have h : ' ' = lowerChar ' ' := rfl
  conv_lhs => rw [h]
  exact List.getD_map q ' ' lowerChar

theorem kwAt_map_lowerChar (q kw : List Char) (i : Nat) :
    kwAt (q.map lowerChar) i kw = kwAt q i kw := by
  unfold kwAt
  rw [List.length_map, ← List.map_drop, ← List.map_take, List.zip_map_left,
    List.all_map]
  congr 1
  apply all_congr
  intro p _
  obtain ⟨a, b⟩ := p
  simp only [Function.comp_apply, Prod.map_apply, id_eq, lowerChar_idem]

theorem boundaryBefore_map_lowerChar (q : List Char) (i : Nat) :
    boundaryBefore (q.map lowerChar) i = boundaryBefore q i := by
  unfold boundaryBefore
  rw [getD_map_lowerChar, isWordChar_lowerChar]

theorem boundaryAfter_map_lowerChar (q : List Char) (j : Nat) :
    boundaryAfter (q.map lowerChar) j = boundaryAfter q j := by
  unfold boundaryAfter
  rw [getD_map_lowerChar, isWordChar_lowerChar, List.length_map]

theorem wordOccurs_map_lowerChar (q kw : List Char) :
    wordOccurs (q.map lowerChar) kw = wordOccurs q kw := by
  unfold wordOccurs
  rw [List.length_map]
  apply any_congr
  intro i _
  rw [kwAt_map_lowerChar, boundaryBefore_map_lowerChar,
    boundaryAfter_map_lowerChar]

theorem searchAny_map_lowerChar (q : List Char) (kws : List (List Char)) :
    searchAny (q.map lowerChar) kws = searchAny q kws := by
  unfold searchAny
  apply any_congr
  intro kw _
  exact wordOccurs_map_lowerChar q kw

theorem pyStrip_map_lowerChar (q : List Char) :
    pyStrip (q.map lowerChar) = (pyStrip q).map lowerChar := by
  unfold pyStrip
  have hcomp : isPySpace ∘ lowerChar = isPySpace := by
    funext c
    exact isPySpace_lowerChar c
  rw [List.dropWhile_map, hcomp, ← List.map_reverse, List.dropWhile_map, hcomp]
  exact (List.map_reverse _ _).symm

theorem digitChar_isDigit (d : Nat) : (digitChar d).isDigit = true := by
  unfold digitChar
  split <;> decide

theorem digitVal_digitChar (d : Nat) (h : d < 10) :
    digitVal (digitChar d) = d := by
  interval_cases d <;> decide

theorem foldl_decimalDigitsAux : ∀ fuel n a, n ≤ fuel →
    List.foldl (fun a c => a * 10 + digitVal c) a (decimalDigitsAux fuel n) =
      a * 10 ^ (decimalDigitsAux fuel n).length + n := by
  intro fuel
  induction fuel with
  | zero =>
    intro n a h
    interval_cases n
    simp [decimalDigitsAux]
  | succ f ih =>
    intro n a h
    cases n with
    | zero => simp [decimalDigitsAux]
    | succ m =>
      have heq : decimalDigitsAux (f + 1) (m + 1) =
          decimalDigitsAux f ((m + 1) / 10) ++ [digitChar ((m + 1) % 10)] :=
        rfl
      rw [heq, List.foldl_append, List.length_append]
      have hdiv : (m + 1) / 10 ≤ f := by omega
      rw [ih ((m + 1) / 10) a hdiv]
      simp only [List.foldl_cons, List.foldl_nil, List.length_cons,
        List.length_nil]
      rw [digitVal_digitChar _ (Nat.mod_lt _ (by norm_num))]
      have hdm : (m + 1) / 10 * 10 + (m + 1) % 10 = m + 1 :=
        Nat.div_add_mod' (m + 1) 10
      calc (a * 10 ^ (decimalDigitsAux f ((m + 1) / 10)).length + (m + 1) / 10)
            * 10 + (m + 1) % 10
          = a * (10 ^ (decimalDigitsAux f ((m + 1) / 10)).length * 10) +
            ((m + 1) / 10 * 10 + (m + 1) % 10) := by ring
        _ = a * 10 ^ ((decimalDigitsAux f ((m + 1) / 10)).length + (0 + 1)) +
            (m + 1) := by rw [hdm, pow_succ]

theorem digitsVal_decimalDigits (n : Nat) :
    digitsVal (decimalDigits n) = n := by
  unfold digitsVal decimalDigits
  split
  · next h => rw [h]; decide
  · next h =>
    rw [foldl_decimalDigitsAux n n 0 (le_refl n)]
    simp

theorem mem_decimalDigitsAux : ∀ fuel n c, c ∈ decimalDigitsAux fuel n →
    c.isDigit = true := by
  intro fuel
  induction fuel with
  | zero =>
    intro n c hc
    simp [decimalDigitsAux] at hc
  | succ f ih =>
    intro n c hc
    cases n with
    | zero => simp [decimalDigitsAux] at hc
    | succ m =>
      have heq : decimalDigitsAux (f + 1) (m + 1) =
          decimalDigitsAux f ((m + 1) / 10) ++ [digitChar ((m + 1) % 10)] :=
        rfl
      rw [heq, List.mem_append] at hc
      rcases hc with hc | hc
      · exact ih _ c hc
      · rw [List.mem_singleton] at hc
        rw [hc]
        exact digitChar_isDigit _

theorem decimalDigits_isDigit (n : Nat) :
    ∀ c ∈ decimalDigits n, c.isDigit = true := by
  intro c hc
  unfold decimalDigits at hc
  split at hc
  · rw [List.mem_singleton] at hc
    rw [hc]
    decide
  · exact mem_decimalDigitsAux n n c hc

theorem decimalDigits_ne_nil (n : Nat) : decimalDigits n ≠ [] := by
  unfold decimalDigits
  split
  · simp
  · next h =>
    cases n with
    | zero => exact absurd rfl h
    | succ m =>
      have heq : decimalDigitsAux (m + 1) (m + 1) =
          decimalDigitsAux m ((m + 1) / 10) ++ [digitChar ((m + 1) % 10)] :=
        rfl
      rw [heq]
      simp

theorem tryMatch_nil : tryMatch [] = none := rfl

theorem tryMatch_ne_lbrack {c : Char} (cs : List Char) (h : c ≠ '[') :
    tryMatch (c :: cs) = none := by
  simp [tryMatch, h]

theorem isHexLower_ne_lbrack {c : Char} (h : isHexLower c = true) :
    c ≠ '[' := by
  rintro rfl
  exact absurd h (by decide)

theorem isDigit_ne_lbrack {c : Char} (h : c.isDigit = true) : c ≠ '[' := by
  rintro rfl
  exact absurd h (by decide)

theorem takeWhile_dropWhile_append (p : Char → Bool) :
    ∀ (L : List Char) (c : Char) (rs : List Char), (∀ x ∈ L, p x = true) →
      p c = false →
      (L ++ c :: rs).takeWhile p = L ∧ (L ++ c :: rs).dropWhile p = c :: rs := by
  intro L
  induction L with
  | nil =>
    intro c rs _ hc
    simp [List.takeWhile_cons, List.dropWhile_cons, hc]
  | cons a L ih =>
    intro c rs hL hc
    have ha : p a = true := hL a (List.mem_cons_self a L)
    obtain ⟨h1, h2⟩ := ih c rs (fun x hx => hL x (List.mem_cons_of_mem a hx)) hc
    simp [List.takeWhile_cons, List.dropWhile_cons, ha, h1, h2]

theorem format_citation_length (cid : List Char) (n : Nat)
    (hlen : cid.length = 12) :
    (format_citation cid n).length = 17 + (decimalDigits n).length := by
  simp [format_citation, hlen]
  omega

theorem tryMatch_cons (c : Char) (r1 : List Char) :
    tryMatch (c :: r1) =
      (if c = '[' then
        if (r1.take 12).length = 12 ∧ (r1.take 12).all isHexLower then
          if ((r1.drop 12).takeWhile isPySpace).length = 0 then none
          else
            match (r1.drop 12).dropWhile isPySpace with
            | 'p' :: '.' :: r3 =>
              if (r3.takeWhile Char.isDigit).length = 0 then none
              else
                match r3.dropWhile Char.isDigit with
                | ']' :: _ => some (r1.take 12,
                    digitsVal (r3.takeWhile Char.isDigit),
                    16 + ((r1.drop 12).takeWhile isPySpace).length +
                      (r3.takeWhile Char.isDigit).length)
                | _ => none
            | _ => none
        else none
      else none) := rfl

theorem tryMatch_format (cid : List Char) (n : Nat) (post : List Char)
    (hlen : cid.length = 12) (hhex : cid.all isHexLower = true) :
    tryMatch (format_citation cid n ++ post) =
      some (cid, n, (format_citation cid n).length) := by
  have hshape : format_citation cid n ++ post =
      '[' :: (cid ++ (' ' :: 'p' :: '.' ::
        (decimalDigits n ++ ']' :: post))) := by
    simp [format_citation]
  have htake : (cid ++ (' ' :: 'p' :: '.' ::
      (decimalDigits n ++ ']' :: post))).take 12 = cid := by
    rw [← hlen]
    exact List.take_left _ _
  have hdrop : (cid ++ (' ' :: 'p' :: '.' ::
      (decimalDigits n ++ ']' :: post))).drop 12 =
      ' ' :: 'p' :: '.' :: (decimalDigits n ++ ']' :: post) := by
    rw [← hlen]
    exact List.drop_left _ _
  have hsp1 : isPySpace ' ' = true := by decide
  have hsp2 : isPySpace 'p' = false := by decide
  have htw : (' ' :: 'p' :: '.' ::
      (decimalDigits n ++ ']' :: post)).takeWhile isPySpace = [' '] := by
    rw [List.takeWhile_cons, if_pos hsp1, List.takeWhile_cons,
      if_neg (by rw [hsp2]; exact Bool.false_ne_true)]
  have hdw : (' ' :: 'p' :: '.' ::
      (decimalDigits n ++ ']' :: post)).dropWhile isPySpace =
      'p' :: '.' :: (decimalDigits n ++ ']' :: post) := by
    rw [List.dropWhile_cons, if_pos hsp1, List.dropWhile_cons,
      if_neg (by rw [hsp2]; exact Bool.false_ne_true)]
  obtain ⟨htd, hdd⟩ := takeWhile_dropWhile_append Char.isDigit
    (decimalDigits n) ']' post (decimalDigits_isDigit n) (by decide)
  rw [hshape, tryMatch_cons, if_pos rfl, htake, hdrop,
    if_pos ⟨hlen, hhex⟩, htw, hdw]
  simp only [htd, hdd, List.length_cons, List.length_nil]
  rw [if_neg (by omega), if_neg (by
    intro hc
    exact decimalDigits_ne_nil n (List.length_eq_zero.mp hc))]
  rw [digitsVal_decimalDigits, format_citation_length cid n hlen]

theorem scanCitations_zero (s : List Char) : scanCitations 0 s = [] := by
  cases s <;> rfl

theorem scanCitations_no_match : ∀ (fuel : Nat) (s : List Char),
    (∀ j, tryMatch (s.drop j) = none) → scanCitations fuel s = [] := by
  intro fuel
  induction fuel with
  | zero => intro s _; exact scanCitations_zero s
  | succ f ih =>
    intro s h
    cases s with
    | nil => rfl
    | cons c cs =>
      have h0 : tryMatch (c :: cs) = none := by
        have := h 0
        rwa [List.drop_zero] at this
      simp only [scanCitations, h0]
      exact ih cs fun j => by
        have := h (j + 1)
        rwa [List.drop_succ_cons] at this

theorem scanCitations_append_pre : ∀ (pre : List Char) (fuel : Nat)
    (rest : List Char),
    (∀ j < pre.length, tryMatch ((pre ++ rest).drop j) = none) →
    scanCitations fuel (pre ++ rest) =
      scanCitations (fuel - pre.length) rest := by
  intro pre
  induction pre with
  | nil =>
    intro fuel rest _
    simp
  | cons c pre ih =>
    intro fuel rest h
    simp only [List.cons_append, List.length_cons] at h ⊢
    cases fuel with
    | zero =>
      rw [Nat.zero_sub, scanCitations_zero, scanCitations_zero]
    | succ f =>
      have h0 : tryMatch (c :: (pre ++ rest)) = none := by
        have := h 0 (by omega)
        rwa [List.drop_zero] at this
      simp only [scanCitations, h0]
      rw [ih f rest fun j hj => by
        have := h (j + 1) (by omega)
        rwa [List.drop_succ_cons] at this]
      rw [Nat.succ_sub_succ]

theorem scanCitations_single_match (fuel : Nat) (m rest : List Char)
    (cid : List Char) (p : Nat)
    (hm : tryMatch (m ++ rest) = some (cid, p, m.length))
    (hrest : ∀ j, tryMatch (rest.drop j) = none)
    (hm_ne : m ≠ []) (hfuel : 1 ≤ fuel) :
    scanCitations fuel (m ++ rest) = [⟨cid, p⟩] := by
  cases fuel with
  | zero => omega
  | succ f =>
    cases m with
    | nil => exact absurd rfl hm_ne
    | cons c m' =>
      simp only [List.cons_append] at hm ⊢
      simp only [scanCitations, hm]
      simp only [List.length_cons, List.drop_succ_cons]
      rw [List.drop_left]
      rw [scanCitations_no_match f rest hrest]

theorem chunkLoop_zero (H : List Char → List Char) (enc : Encoding)
    (fp : List Char) (pn : Nat) (sn : List Char) (ct ov mct : Nat)
    (tokens : List Nat) (start gidx : Nat) :
    chunkLoop H enc fp pn sn ct ov mct tokens 0 start gidx = none := rfl

theorem chunkLoop_succ (H : List Char → List Char) (enc : Encoding)
    (fp : List Char) (pn : Nat) (sn : List Char) (ct ov mct : Nat)
    (tokens : List Nat) (fuel start gidx : Nat) :
    chunkLoop H enc fp pn sn ct ov mct tokens (fuel + 1) start gidx =
      (if start < tokens.length then
        if windowEnd ct mct tokens.length start = tokens.length then
          some ((if windowText enc tokens ct mct start = [] then
              ([] : List Chunk)
            else [mkChunk H fp pn sn gidx
              (windowText enc tokens ct mct start)]),
            if windowText enc tokens ct mct start = [] then gidx
            else gidx + 1)
        else
          match chunkLoop H enc fp pn sn ct ov mct tokens fuel
              (windowEnd ct mct tokens.length start - ov)
              (if windowText enc tokens ct mct start = [] then gidx
               else gidx + 1) with
          | none => none
          | some (rest, g) =>
            some ((if windowText enc tokens ct mct start = [] then
                ([] : List Chunk)
              else [mkChunk H fp pn sn gidx
                (windowText enc tokens ct mct start)]) ++ rest, g)
      else some ([], gidx)) := rfl

theorem chunkPagesAux_cons (H : List Char → List Char) (enc : Encoding)
    (ct ov mct : Nat) (page : PageText) (rest : List PageText)
    (cur : List Char) (gidx : Nat) :
    chunkPagesAux H enc ct ov mct (page :: rest) cur gidx =
      (if (enc.encode page.text).length = 0 then
        chunkPagesAux H enc ct ov mct rest
          (_pick_section_name cur page.detected_headings) gidx
      else
        match chunkLoop H enc page.file_path page.page_number
            (_clean_heading (_pick_section_name cur page.detected_headings))
            ct ov mct (enc.encode page.text)
            ((enc.encode page.text).length + 1) 0 gidx with
        | none => none
        | some (cs, g) =>
          match chunkPagesAux H enc ct ov mct rest
              (_pick_section_name cur page.detected_headings) g with
          | none => none
          | some more => some (cs ++ more)) := rfl

theorem windowEnd_le (ct mct len start : Nat) :
    windowEnd ct mct len start ≤ len := by
  unfold windowEnd
  split <;> omega

theorem windowEnd_gt (ct mct len start : Nat) (hct : 1 ≤ ct)
    (hs : start < len) : start < windowEnd ct mct len start := by
  unfold windowEnd
  split <;> omega

theorem windowEnd_next (ct ov mct len start : Nat) (hov : ov < ct)
    (hs : start < len) (hne : windowEnd ct mct len start ≠ len) :
    start < windowEnd ct mct len start - ov := by
  by_cases hc : min (start + ct) len - start < mct ∧ min (start + ct) len ≠ len
  · unfold windowEnd at hne ⊢
    rw [if_pos hc] at hne ⊢
    omega
  · unfold windowEnd at hne ⊢
    rw [if_neg hc] at hne ⊢
    omega

theorem chunkLoop_isSome (H : List Char → List Char) (enc : Encoding)
    (fp : List Char) (pn : Nat) (sn : List Char) (ct ov mct : Nat)
    (tokens : List Nat) (hov : ov < ct) :
    ∀ fuel start gidx, tokens.length - start < fuel →
      (chunkLoop H enc fp pn sn ct ov mct tokens fuel start gidx).isSome =
        true := by
  intro fuel
  induction fuel with
  | zero =>
    intro start gidx h
    exact absurd h (Nat.not_lt_zero _)
  | succ f ih =>
    intro start gidx hf
    rw [chunkLoop_succ]
    by_cases hs : start < tokens.length
    · rw [if_pos hs]
      by_cases he : windowEnd ct mct tokens.length start = tokens.length
      · rw [if_pos he]; rfl
      · rw [if_neg he]
        have hnext := windowEnd_next ct ov mct tokens.length start hov hs he
        have hle := windowEnd_le ct mct tokens.length start
        have hrec := ih (windowEnd ct mct tokens.length start - ov)
          (if windowText enc tokens ct mct start = [] then gidx else gidx + 1)
          (by omega)
        cases hres : chunkLoop H enc fp pn sn ct ov mct tokens f
            (windowEnd ct mct tokens.length start - ov)
            (if windowText enc tokens ct mct start = [] then gidx
             else gidx + 1) with
        | none => rw [hres] at hrec; simp at hrec
        | some v => obtain ⟨rest, g⟩ := v; rfl
    · rw [if_neg hs]; rfl

theorem chunkPagesAux_isSome (H : List Char → List Char) (enc : Encoding)
    (ct ov mct : Nat) (hov : ov < ct) :
    ∀ (pages : List PageText) (cur : List Char) (gidx : Nat),
      (chunkPagesAux H enc ct ov mct pages cur gidx).isSome = true := by
  intro pages
  induction pages with
  | nil => intro cur gidx; rfl
  | cons page rest ih =>
    intro cur gidx
    rw [chunkPagesAux_cons]
    by_cases htok : (enc.encode page.text).length = 0
    · rw [if_pos htok]
      exact ih _ _
    · rw [if_neg htok]
      have h1 := chunkLoop_isSome H enc page.file_path page.page_number
        (_clean_heading (_pick_section_name cur page.detected_headings))
        ct ov mct (enc.encode page.text) hov
        ((enc.encode page.text).length + 1) 0 gidx (by omega)
      cases hres : chunkLoop H enc page.file_path page.page_number
          (_clean_heading (_pick_section_name cur page.detected_headings))
          ct ov mct (enc.encode page.text)
          ((enc.encode page.text).length + 1) 0 gidx with
      | none => rw [hres] at h1; simp at h1
      | some v =>
        obtain ⟨cs, g⟩ := v
        have h2 := ih (_pick_section_name cur page.detected_headings) g
        cases hres2 : chunkPagesAux H enc ct ov mct rest
            (_pick_section_name cur page.detected_headings) g with
        | none => rw [hres2] at h2; simp at h2
        | some more => simp [hres2]

theorem chunkLoop_inv (H : List Char → List Char) (enc : Encoding)
    (fp : List Char) (pn : Nat) (sn : List Char) (ct ov mct : Nat)
    (tokens : List Nat) :
    ∀ fuel start gidx cs g,
      chunkLoop H enc fp pn sn ct ov mct tokens fuel start gidx =
        some (cs, g) →
      g = gidx + cs.length ∧
      cs.map Chunk.chunk_index = List.range' gidx cs.length ∧
      ∀ ch ∈ cs, ch.source_path = fp ∧ ch.page_number = pn ∧
        ch.section_name = sn ∧
        ch.chunk_id = _stable_chunk_id H fp pn sn ch.chunk_index ch.text := by
  intro fuel
  induction fuel with
  | zero =>
    intro start gidx cs g h
    rw [chunkLoop_zero] at h
    exact absurd h (by simp)
  | succ f ih =>
    intro start gidx cs g h
    rw [chunkLoop_succ] at h
    by_cases hs : start < tokens.length
    · rw [if_pos hs] at h
      by_cases he : windowEnd ct mct tokens.length start = tokens.length
      · rw [if_pos he] at h
        simp only [Option.some.injEq, Prod.mk.injEq] at h
        obtain ⟨rfl, rfl⟩ := h
        by_cases ht : windowText enc tokens ct mct start = []
        · simp only [if_pos ht]
          exact ⟨by simp, by simp [List.range'], by simp⟩
        · simp only [if_neg ht]
          refine ⟨by simp, ?_, ?_⟩
          · simp [mkChunk, List.range'_succ, List.range']
          · intro ch hch
            simp only [List.mem_singleton] at hch
            subst hch
            exact ⟨rfl, rfl, rfl, rfl⟩
      · rw [if_neg he] at h
        cases hres : chunkLoop H enc fp pn sn ct ov mct tokens f
            (windowEnd ct mct tokens.length start - ov)
            (if windowText enc tokens ct mct start = [] then gidx
             else gidx + 1) with
        | none => rw [hres] at h; exact absurd h (by simp)
        | some v =>
          obtain ⟨rest, g'⟩ := v
          rw [hres] at h
          simp only [Option.some.injEq, Prod.mk.injEq] at h
          obtain ⟨rfl, rfl⟩ := h
          obtain ⟨ih1, ih2, ih3⟩ := ih _ _ _ _ hres
          by_cases ht : windowText enc tokens ct mct start = []
          · simp only [if_pos ht] at ih1 ih2 ih3 ⊢
            exact ⟨by simpa using ih1, by simpa using ih2,
              by simpa using ih3⟩
          · simp only [if_neg ht] at ih1 ih2 ih3 ⊢
            refine ⟨?_, ?_, ?_⟩
            · simp only [List.singleton_append, List.length_cons]
              omega
            · simp only [List.singleton_append, List.map_cons, ih2,
                List.length_cons, mkChunk]
              rw [List.range'_succ]
            · intro ch hch
              simp only [List.singleton_append] at hch
              rcases List.mem_cons.mp hch with rfl | hch
              · exact ⟨rfl, rfl, rfl, rfl⟩
              · exact ih3 ch hch
    · rw [if_neg hs] at h
      simp only [Option.some.injEq, Prod.mk.injEq] at h
      obtain ⟨rfl, rfl⟩ := h
      exact ⟨by simp, by simp [List.range'], by simp⟩

theorem chunkPagesAux_inv (H : List Char → List Char) (enc : Encoding)
    (ct ov mct : Nat) :
    ∀ (pages : List PageText) (cur : List Char) (gidx : Nat)
      (cs : List Chunk),
      chunkPagesAux H enc ct ov mct pages cur gidx = some cs →
      cs.map Chunk.chunk_index = List.range' gidx cs.length ∧
      ∀ ch ∈ cs, ch.chunk_id = _stable_chunk_id H ch.source_path
        ch.page_number ch.section_name ch.chunk_index ch.text := by
  intro pages
  induction pages with
  | nil =>
    intro cur gidx cs h
    have hn : chunkPagesAux H enc ct ov mct [] cur gidx = some [] := rfl
    rw [hn] at h
    simp only [Option.some.injEq] at h
    subst h
    exact ⟨by simp [List.range'], by simp⟩
  | cons page rest ih =>
    intro cur gidx cs h
    rw [chunkPagesAux_cons] at h
    by_cases htok : (enc.encode page.text).length = 0
    · rw [if_pos htok] at h
      exact ih _ _ _ h
    · rw [if_neg htok] at h
      cases hres : chunkLoop H enc page.file_path page.page_number
          (_clean_heading (_pick_section_name cur page.detected_headings))
          ct ov mct (enc.encode page.text)
          ((enc.encode page.text).length + 1) 0 gidx with
      | none => rw [hres] at h; exact absurd h (by simp)
      | some v =>
        obtain ⟨cs1, g⟩ := v
        simp only [hres] at h
        cases hres2 : chunkPagesAux H enc ct ov mct rest
            (_pick_section_name cur page.detected_headings) g with
        | none => rw [hres2] at h; exact absurd h (by simp)
        | some more =>
          simp only [hres2, Option.some.injEq] at h
          subst h
          obtain ⟨l1, l2, l3⟩ := chunkLoop_inv H enc page.file_path
            page.page_number
            (_clean_heading (_pick_section_name cur page.detected_headings))
            ct ov mct (enc.encode page.text) _ _ _ _ _ hres
          obtain ⟨r1, r2⟩ := ih _ g more hres2
          constructor
          · have hr := List.range'_append gidx cs1.length more.length 1
            simp only [one_mul] at hr
            rw [List.map_append, l2, r1, l1, List.length_append,
              Nat.add_comm cs1.length more.length]
            exact hr
          · intro ch hch
            rcases List.mem_append.mp hch with hch | hch
            · obtain ⟨hsp, hpn, hsn, hid⟩ := l3 ch hch
              rw [hsp, hpn, hsn]
              exact hid
            · exact r2 ch hch

theorem pyStrip_eq_nil_iff (s : List Char) :
    pyStrip s = [] ↔ ∀ c ∈ s, isPySpace c = true := by
  unfold pyStrip
  rw [List.reverse_eq_nil_iff, List.dropWhile_eq_nil_iff]
  constructor
  · intro h c hc
    rw [← List.takeWhile_append_dropWhile isPySpace s] at hc
    rcases List.mem_append.mp hc with hc | hc
    · exact List.mem_takeWhile_imp hc
    · exact h c (List.mem_reverse.mpr hc)
  · intro h c hc
    apply h
    have hc' := List.mem_reverse.mp hc
    rw [← List.takeWhile_append_dropWhile isPySpace s]
    exact List.mem_append.mpr (Or.inr hc')

theorem chunkLoop_all_space (H : List Char → List Char) (enc : Encoding)
    (fp : List Char) (pn : Nat) (sn : List Char) (ct ov mct : Nat)
    (tokens : List Nat)
    (hsp : ∀ t ∈ tokens, ∀ c ∈ enc.tokStr t, isPySpace c = true) :
    ∀ fuel start gidx cs g,
      chunkLoop H enc fp pn sn ct ov mct tokens fuel start gidx =
        some (cs, g) → cs = [] := by
  have htext : ∀ start, windowText enc tokens ct mct start = [] := by
    intro start
    unfold windowText
    rw [pyStrip_eq_nil_iff]
    intro c hc
    unfold decodeToks at hc
    rcases List.mem_flatten.mp hc with ⟨l, hl, hcl⟩
    rcases List.mem_map.mp hl with ⟨t, ht, rfl⟩
    exact hsp t (List.drop_subset _ _ (List.take_subset _ _ ht)) c hcl
  intro fuel
  induction fuel with
  | zero =>
    intro start gidx cs g h
    rw [chunkLoop_zero] at h
    exact absurd h (by simp)
  | succ f ih =>
    intro start gidx cs g h
    rw [chunkLoop_succ] at h
    by_cases hs : start < tokens.length
    · rw [if_pos hs, htext start] at h
      by_cases he : windowEnd ct mct tokens.length start = tokens.length
      · rw [if_pos he] at h
        simp only [Option.some.injEq, Prod.mk.injEq] at h
        have h1 := h.1.symm
        simpa using h1
      · rw [if_neg he] at h
        have hgid : (if ([] : List Char) = [] then gidx else gidx + 1) =
            gidx := if_pos rfl
        have hemit : (if ([] : List Char) = [] then ([] : List Chunk)
            else [mkChunk H fp pn sn gidx []]) = [] := if_pos rfl
        rw [hgid, hemit] at h
        cases hres : chunkLoop H enc fp pn sn ct ov mct tokens f
            (windowEnd ct mct tokens.length start - ov) gidx with
        | none => rw [hres] at h; exact absurd h (by simp)
        | some v =>
          obtain ⟨rest, g'⟩ := v
          rw [hres] at h
          simp only [List.nil_append, Option.some.injEq, Prod.mk.injEq] at h
          rw [← h.1]
          exact ih _ _ _ _ hres
    · rw [if_neg hs] at h
      simp only [Option.some.injEq, Prod.mk.injEq] at h
      exact h.1.symm

theorem chunkLoop_empty_space (H : List Char → List Char) (enc : Encoding)
    (fp : List Char) (pn : Nat) (sn : List Char) (ct ov mct : Nat)
    (tokens : List Nat) (hov : ov < ct) :
    ∀ fuel start gidx cs g,
      chunkLoop H enc fp pn sn ct ov mct tokens fuel start gidx =
        some (cs, g) → cs = [] →
      ∀ t ∈ tokens.drop start, ∀ c ∈ enc.tokStr t, isPySpace c = true := by
  intro fuel
  induction fuel with
  | zero =>
    intro start gidx cs g h
    rw [chunkLoop_zero] at h
    exact absurd h (by simp)
  | succ f ih =>
    intro start gidx cs g h hcs
    subst hcs
    rw [chunkLoop_succ] at h
    by_cases hs : start < tokens.length
    · rw [if_pos hs] at h
      have hct : 1 ≤ ct := by omega
      have hgt := windowEnd_gt ct mct tokens.length start hct hs
      have hle := windowEnd_le ct mct tokens.length start
      by_cases ht0 : windowText enc tokens ct mct start = []
      · have hwin : ∀ t ∈ (tokens.drop start).take
            (windowEnd ct mct tokens.length start - start),
            ∀ c ∈ enc.tokStr t, isPySpace c = true := by
          intro t ht c hc
          unfold windowText at ht0
          refine (pyStrip_eq_nil_iff _).mp ht0 c ?_
          unfold decodeToks
          exact List.mem_flatten.mpr
            ⟨enc.tokStr t, List.mem_map.mpr ⟨t, ht, rfl⟩, hc⟩
        by_cases he : windowEnd ct mct tokens.length start = tokens.length
        · intro t ht c hc
          apply hwin t ?_ c hc
          rw [he, ← List.length_drop, List.take_length]
          exact ht
        · rw [if_neg he] at h
          rw [if_pos ht0, if_pos ht0] at h
          cases hres : chunkLoop H enc fp pn sn ct ov mct tokens f
              (windowEnd ct mct tokens.length start - ov) gidx with
          | none => rw [hres] at h; exact absurd h (by simp)
          | some v =>
            obtain ⟨rest, g'⟩ := v
            rw [hres] at h
            simp only [List.nil_append, Option.some.injEq,
              Prod.mk.injEq] at h
            have hrest : rest = [] := h.1
            have hrec := ih _ _ _ _ hres hrest
            intro t ht c hc
            have hsplit : tokens.drop start =
                (tokens.drop start).take
                  (windowEnd ct mct tokens.length start - start) ++
                tokens.drop (windowEnd ct mct tokens.length start) := by
              conv_lhs => rw [← List.take_append_drop
                (windowEnd ct mct tokens.length start - start)
                (tokens.drop start)]
              congr 1
              rw [List.drop_drop]
              congr 1
              omega
            rw [hsplit] at ht
            rcases List.mem_append.mp ht with ht | ht
            · exact hwin t ht c hc
            · have hsub : tokens.drop (windowEnd ct mct tokens.length start) ⊆
                  tokens.drop (windowEnd ct mct tokens.length start - ov) := by
                intro x hx
                have hd : tokens.drop (windowEnd ct mct tokens.length start) =
                    (tokens.drop
                      (windowEnd ct mct tokens.length start - ov)).drop
                      (windowEnd ct mct tokens.length start -
                        (windowEnd ct mct tokens.length start - ov)) := by
                  rw [List.drop_drop]
                  congr 1
                  omega
                rw [hd] at hx
                exact List.drop_subset _ _ hx
              exact hrec t (hsub ht) c hc
      · exfalso
        by_cases he : windowEnd ct mct tokens.length start = tokens.length
        · rw [if_pos he] at h
          rw [if_neg ht0, if_neg ht0] at h
          simp at h
        · rw [if_neg he] at h
          rw [if_neg ht0, if_neg ht0] at h
          cases hres : chunkLoop H enc fp pn sn ct ov mct tokens f
              (windowEnd ct mct tokens.length start - ov) (gidx + 1) with
          | none => rw [hres] at h; exact absurd h (by simp)
          | some v =>
            obtain ⟨rest, g'⟩ := v
            rw [hres] at h
            simp at h
    · intro t ht
      rw [List.drop_eq_nil_of_le (by omega)] at ht
      exact absurd ht (List.not_mem_nil t)

theorem sampleEnc_decode_encode (s : List Char) :
    decodeToks sampleEnc (sampleEnc.encode s) = s := by
  induction s with
  | nil => rfl
  | cons c cs ih =>
    show Char.ofNat c.toNat :: decodeToks sampleEnc (sampleEnc.encode cs) = _
    rw [ih, Char.ofNat_toNat]

/-! ## Claim theorems -/

/-- C3: `should_abstain(retrieved, min_similarity)` returns true iff
`retrieved` is empty or the maximum similarity over `retrieved` is strictly
below `min_similarity`; it returns true for the empty list regardless of the
threshold, and for fixed `retrieved` it is monotone in the threshold (raising
`min_similarity` can only flip the result from false to true). -/
theorem should_abstain_spec :
    (∀ m : ℚ, should_abstain [] m = true) ∧
    (∀ (R : List Retrieved) (m : ℚ), should_abstain R m = true ↔
      (R = [] ∨ ∃ b ∈ R.map Retrieved.score,
        (∀ x ∈ R.map Retrieved.score, x ≤ b) ∧ b < m)) ∧
    (∀ (R : List Retrieved) (m m' : ℚ), m ≤ m' →
      should_abstain R m = true → should_abstain R m' = true) := by
  refine ⟨fun m => rfl, fun R m => ?_, fun R m m' hmm' h => ?_⟩
  · cases R with
    | nil => simp [should_abstain]
    | cons r rs =>
      simp only [should_abstain, decide_eq_true_eq, List.map_cons,
        List.mem_cons, reduceCtorEq, false_or]
      constructor
      · intro h
        refine ⟨(rs.map Retrieved.score).foldl max r.score, ?_, ?_, h⟩
        · rcases foldl_max_mem (rs.map Retrieved.score) r.score with h' | h'
          · exact Or.inl h'
          · exact Or.inr h'
        · intro x hx
          rcases hx with rfl | hx
          · exact (le_foldl_max (rs.map Retrieved.score) r.score).1
          · exact (le_foldl_max (rs.map Retrieved.score) r.score).2 x hx
      · rintro ⟨b, hb, hub, hbm⟩
        have hle : (rs.map Retrieved.score).foldl max r.score ≤ b := by
          rcases foldl_max_mem (rs.map Retrieved.score) r.score with h' | h'
          · rw [h']; exact hub r.score (Or.inl rfl)
          · exact hub _ (Or.inr h')
        exact lt_of_le_of_lt hle hbm
  · cases R with
    | nil => rfl
    | cons r rs =>
      simp only [should_abstain, decide_eq_true_eq] at h ⊢
      exact lt_of_lt_of_le h hmm'

/-- Witness for C3: instantiates the monotonicity conjunct at a concrete
retrieved list and thresholds. -/
theorem should_abstain_spec_witness :
    ((2 : ℚ) ≤ 3) ∧
    should_abstain [⟨⟨[], ⟨none, none, none, none⟩⟩, (1 : ℚ)⟩] 3 = true :=
  ⟨by norm_num,
   should_abstain_spec.2.2 [⟨⟨[], ⟨none, none, none, none⟩⟩, (1 : ℚ)⟩]
     (2 : ℚ) 3 (by norm_num) (by decide)⟩

/-- C4: for every chunk id of exactly 12 lowercase hexadecimal digits and
every page number `n`, `extract_citations (format_citation id n)` yields
exactly the one marker `(id, n)`; and embedding the formatted marker in
arbitrary surrounding text containing no other marker-shaped substring (no
position other than the marker's start admits a match) still yields exactly
that one marker. -/
theorem citation_roundtrip (cid : List Char) (n : Nat)
    (hlen : cid.length = 12) (hhex : cid.all isHexLower = true) :
    extract_citations (format_citation cid n) = [⟨cid, n⟩] ∧
    ∀ pre post : List Char,
      (∀ j ∈ List.range (pre ++ format_citation cid n ++ post).length,
        j ≠ pre.length →
        tryMatch ((pre ++ format_citation cid n ++ post).drop j) = none) →
      extract_citations (pre ++ format_citation cid n ++ post) =
        [⟨cid, n⟩] := by
  have hflen : (format_citation cid n).length = 17 + (decimalDigits n).length :=
    format_citation_length cid n hlen
  have hm_ne : format_citation cid n ≠ [] := by
    intro hc
    rw [hc] at hflen
    simp at hflen
    omega
  have hemb : ∀ pre post : List Char,
      (∀ j ∈ List.range (pre ++ format_citation cid n ++ post).length,
        j ≠ pre.length →
        tryMatch ((pre ++ format_citation cid n ++ post).drop j) = none) →
      extract_citations (pre ++ format_citation cid n ++ post) =
        [⟨cid, n⟩] := by
    intro pre post hother
    have hlen_s : (pre ++ format_citation cid n ++ post).length =
        pre.length + (format_citation cid n).length + post.length := by
      simp [List.length_append]
      omega
    unfold extract_citations
    rw [List.append_assoc]
    rw [scanCitations_append_pre pre _ (format_citation cid n ++ post)
      fun j hj => by
        have h1 := hother j (List.mem_range.mpr (by rw [hlen_s]; omega))
          (by omega)
        rwa [List.append_assoc] at h1]
    apply scanCitations_single_match
    · exact tryMatch_format cid n post hlen hhex
    · intro j
      by_cases hj : j < post.length
      · have hdecomp : pre.length + ((format_citation cid n).length + j) ≠
            pre.length := by omega
        have h1 := hother (pre.length + ((format_citation cid n).length + j))
          (List.mem_range.mpr (by rw [hlen_s]; omega)) hdecomp
        rw [List.append_assoc, List.drop_append, List.drop_append] at h1
        exact h1
      · rw [List.drop_eq_nil_of_le (by omega)]
        exact tryMatch_nil
    · exact hm_ne
    · simp only [List.length_append]
      omega
  refine ⟨?_, hemb⟩
  have hinterior : ∀ j ∈ List.range
      ([] ++ format_citation cid n ++ []).length,
      j ≠ ([] : List Char).length →
      tryMatch (([] ++ format_citation cid n ++ []).drop j) = none := by
    intro j hjmem hj0
    have hjlt := List.mem_range.mp hjmem
    simp only [List.nil_append, List.append_nil] at hjlt ⊢
    have hshape : format_citation cid n =
        '[' :: (cid ++ (' ' :: 'p' :: '.' :: (decimalDigits n ++ [']']))) := by
      simp [format_citation]
    have htail : ∀ c ∈ cid ++ (' ' :: 'p' :: '.' ::
        (decimalDigits n ++ [']'])), c ≠ '[' := by
      intro c hc
      rcases List.mem_append.mp hc with hc | hc
      · exact isHexLower_ne_lbrack (List.all_eq_true.mp hhex c hc)
      · rcases hc with _ | ⟨_, hc⟩
        · decide
        rcases hc with _ | ⟨_, hc⟩
        · decide
        rcases hc with _ | ⟨_, hc⟩
        · decide
        rcases List.mem_append.mp hc with hc | hc
        · exact isDigit_ne_lbrack (decimalDigits_isDigit n c hc)
        · rcases hc with _ | ⟨_, hc⟩
          · decide
          · exact absurd hc (List.not_mem_nil c)
    cases j with
    | zero => exact absurd rfl hj0
    | succ j' =>
      rw [hshape, List.drop_succ_cons]
      cases hT : (cid ++ (' ' :: 'p' :: '.' ::
          (decimalDigits n ++ [']']))).drop j' with
      | nil => exact tryMatch_nil
      | cons d ds =>
        refine tryMatch_ne_lbrack ds (htail d ?_)
        exact List.drop_subset j' _ (hT ▸ List.mem_cons_self d ds)
  have h1 := hemb [] [] hinterior
  simpa using h1

/-- Witness for C4: a concrete 12-hex-digit id and page number, both bare and
embedded in surrounding text. -/
theorem citation_roundtrip_witness :
    ("abcdef012345".toList.length = 12 ∧
      "abcdef012345".toList.all isHexLower = true) ∧
    extract_citations (format_citation "abcdef012345".toList 7) =
      [⟨"abcdef012345".toList, 7⟩] ∧
    extract_citations ("see ".toList ++ format_citation "abcdef012345".toList 7
      ++ " ok".toList) = [⟨"abcdef012345".toList, 7⟩] :=
  ⟨⟨by decide, by decide⟩,
   (citation_roundtrip "abcdef012345".toList 7 (by decide) (by decide)).1,
   (citation_roundtrip "abcdef012345".toList 7 (by decide) (by decide)).2
     "see ".toList " ok".toList (by decide)⟩

/-- C5: `route_query` is a pure, deterministic, case-insensitive classifier
applying the strict priority `claim_verify` > `compare` > `method_card` > `qa`,
first match wins, with the keyword lists of the spec (§4.4): it coincides with
the classifier `spec_route` built from the spec's lists and priority, it is
invariant under lowercasing its input, and the question "Verify the comparison
between A and B" routes to `claim_verify`, not `compare`. -/
theorem route_query_spec :
    (∀ q : List Char, route_query q = spec_route q) ∧
    (∀ q : List Char, route_query (q.map lowerChar) = route_query q) ∧
    route_query "Verify the comparison between A and B".toList =
      ⟨"claim_verify"⟩ ∧
    route_query "Verify the comparison between A and B".toList ≠
      ⟨"compare"⟩ := by
  refine ⟨route_query_eq_spec, fun q => ?_, by decide, by decide⟩
  rw [route_query_eq_spec, route_query_eq_spec]
  simp only [spec_route, pyStrip_map_lowerChar, searchAny_map_lowerChar]

/-- C6 (refuting evaluation): `load_config` performs no validation of the
chunking parameters — a configuration with
`chunk_overlap_tokens = chunk_tokens = 64` and a credential present loads
successfully instead of failing fatally at startup. -/
theorem load_config_admits_bad_chunking :
    load_config ⟨"openai", "openai", 64, 64, 32⟩ (some "sk-test") =
      Except.ok ⟨⟨"openai", "openai", 64, 64, 32⟩⟩ ∧
    (⟨"openai", "openai", 64, 64, 32⟩ : RawConfig).chunk_overlap_tokens ≥
      (⟨"openai", "openai", 64, 64, 32⟩ : RawConfig).chunk_tokens :=
  ⟨rfl, le_refl _⟩

/-- C1 (refuting evaluation): when the language model's response is exactly
the abstention sentence and no citation resolves, `answer_question` returns
`abstained = false` with empty `cited_chunks`, violating the invariant that a
non-abstained result carries at least one citation. -/
theorem answer_question_invariant_fails :
    (answer_question ⟨"qa"⟩
      [⟨⟨"evidence text".toList, ⟨some "abcdefabcdef".toList,
         some "paper.pdf".toList, some 3, some "Intro".toList⟩⟩, 2⟩]
      (1 : ℚ) ABSTAIN_MSG).abstained = false ∧
    (answer_question ⟨"qa"⟩
      [⟨⟨"evidence text".toList, ⟨some "abcdefabcdef".toList,
         some "paper.pdf".toList, some 3, some "Intro".toList⟩⟩, 2⟩]
      (1 : ℚ) ABSTAIN_MSG).cited_chunks = [] := by
  constructor <;> rfl

/-- C2 (refuting evaluation): a run in which the language model's response is
exactly the fixed abstention sentence yields `abstained = false` (the
ungrounded-guard condition `response.strip() != ABSTAIN` excludes precisely
this case), contradicting the required `abstained = true`. -/
theorem abstain_sentence_not_flagged :
    (answer_question ⟨"compare"⟩
      [⟨⟨"other text".toList, ⟨some "012345abcdef".toList, none, some 7,
         none⟩⟩, (3 : ℚ)⟩]
      (2 : ℚ) ABSTAIN_MSG).abstained = false := by
  rfl

/-- C7: with a decode-of-encode-faithful tokenizer and valid parameters
(`chunk_overlap_tokens < chunk_tokens`, hence `chunk_tokens ≥ 1`), a page
whose text is empty or whitespace-only yields zero chunks, and a page whose
text contains a non-whitespace character yields at least one chunk. -/
theorem chunk_pages_page_coverage (H : List Char → List Char)
    (enc : Encoding) (page : PageText) (ct ov mct : Nat)
    (henc : ∀ s, decodeToks enc (enc.encode s) = s)
    (hov : ov < ct) :
    (pyStrip page.text = [] → chunk_pages H enc [page] ct ov mct = some []) ∧
    (pyStrip page.text ≠ [] →
      ∃ cs, chunk_pages H enc [page] ct ov mct = some cs ∧ cs ≠ []) := by
  constructor
  · intro hws
    have hall : ∀ c ∈ page.text, isPySpace c = true :=
      (pyStrip_eq_nil_iff _).mp hws
    have hsp : ∀ t ∈ enc.encode page.text, ∀ c ∈ enc.tokStr t,
        isPySpace c = true := by
      intro t ht c hc
      apply hall
      rw [← henc page.text]
      unfold decodeToks
      exact List.mem_flatten.mpr ⟨_, List.mem_map.mpr ⟨t, ht, rfl⟩, hc⟩
    unfold chunk_pages
    rw [chunkPagesAux_cons]
    by_cases htok : (enc.encode page.text).length = 0
    · rw [if_pos htok]; rfl
    · rw [if_neg htok]
      have hiss := chunkLoop_isSome H enc page.file_path page.page_number
        (_clean_heading
          (_pick_section_name "Unknown".toList page.detected_headings))
        ct ov mct (enc.encode page.text) hov
        ((enc.encode page.text).length + 1) 0 0 (by omega)
      cases hres : chunkLoop H enc page.file_path page.page_number
          (_clean_heading
            (_pick_section_name "Unknown".toList page.detected_headings))
          ct ov mct (enc.encode page.text)
          ((enc.encode page.text).length + 1) 0 0 with
      | none => rw [hres] at hiss; simp at hiss
      | some v =>
        obtain ⟨cs1, g⟩ := v
        have hcs1 := chunkLoop_all_space H enc page.file_path
          page.page_number
          (_clean_heading
            (_pick_section_name "Unknown".toList page.detected_headings))
          ct ov mct (enc.encode page.text) hsp _ _ _ _ _ hres
        subst hcs1
        have hnil : ∀ cur' : List Char,
            chunkPagesAux H enc ct ov mct [] cur' g = some [] := fun _ => rfl
        simp [hres, hnil]
  · intro hnws
    obtain ⟨c0, hc0, hc0s⟩ : ∃ c ∈ page.text, ¬ isPySpace c = true := by
      by_contra hcon
      push_neg at hcon
      exact hnws ((pyStrip_eq_nil_iff _).mpr hcon)
    have htok : (enc.encode page.text).length ≠ 0 := by
      intro h0
      have henc' := henc page.text
      rw [List.length_eq_zero] at h0
      rw [h0] at henc'
      unfold decodeToks at henc'
      simp only [List.map_nil, List.flatten_nil] at henc'
      rw [← henc'] at hc0
      exact absurd hc0 (List.not_mem_nil c0)
    unfold chunk_pages
    rw [chunkPagesAux_cons, if_neg htok]
    have hiss := chunkLoop_isSome H enc page.file_path page.page_number
      (_clean_heading
        (_pick_section_name "Unknown".toList page.detected_headings))
      ct ov mct (enc.encode page.text) hov
      ((enc.encode page.text).length + 1) 0 0 (by omega)
    cases hres : chunkLoop H enc page.file_path page.page_number
        (_clean_heading
          (_pick_section_name "Unknown".toList page.detected_headings))
        ct ov mct (enc.encode page.text)
        ((enc.encode page.text).length + 1) 0 0 with
    | none => rw [hres] at hiss; simp at hiss
    | some v =>
      obtain ⟨cs1, g⟩ := v
      have hnil : ∀ cur' : List Char,
          chunkPagesAux H enc ct ov mct [] cur' g = some [] := fun _ => rfl
      refine ⟨cs1, by simp [hres, hnil], ?_⟩
      intro hcs1
      subst hcs1
      have hsp := chunkLoop_empty_space H enc page.file_path
        page.page_number
        (_clean_heading
          (_pick_section_name "Unknown".toList page.detected_headings))
        ct ov mct (enc.encode page.text) hov _ _ _ _ _ hres rfl
      have h1 : c0 ∈ decodeToks enc (enc.encode page.text) := by
        rw [henc page.text]
        exact hc0
      unfold decodeToks at h1
      rcases List.mem_flatten.mp h1 with ⟨l, hl, hcl⟩
      rcases List.mem_map.mp hl with ⟨t, ht, rfl⟩
      exact hc0s (hsp t (by rwa [List.drop_zero]) c0 hcl)

/-- Witness for C7: the sample page "ab" is not whitespace-only and yields a
non-empty chunk list. -/
theorem chunk_pages_page_coverage_witness :
    ((0 < 1) ∧ pyStrip samplePage.text ≠ []) ∧
    (∃ cs, chunk_pages sampleHash sampleEnc [samplePage] 1 0 1 = some cs ∧
      cs ≠ []) :=
  ⟨⟨by decide, by decide⟩,
   (chunk_pages_page_coverage sampleHash sampleEnc samplePage 1 0 1
     sampleEnc_decode_encode (by decide)).2 (by decide)⟩

/-- C8: for every finite page list and all parameters with
`chunk_overlap_tokens < chunk_tokens`, `chunk_pages` terminates (no per-page
loop runs out of the `tokens.length + 1` fuel, so the result is `some`);
moreover each loop iteration that does not break strictly increases `start`,
since the next start is `windowEnd - chunk_overlap_tokens` and the window
reaches at least `chunk_tokens` past `start` whenever it is not final. -/
theorem chunk_pages_terminates (H : List Char → List Char) (enc : Encoding)
    (pages : List PageText) (ct ov mct : Nat) (hov : ov < ct) :
    (chunk_pages H enc pages ct ov mct).isSome = true ∧
    ∀ len start, start < len → windowEnd ct mct len start ≠ len →
      start < windowEnd ct mct len start - ov :=
  ⟨chunkPagesAux_isSome H enc ct ov mct hov pages "Unknown".toList 0,
   fun len start hs hne => windowEnd_next ct ov mct len start hov hs hne⟩

/-- Witness for C8: a concrete run with overlap 0 and window 1 terminates. -/
theorem chunk_pages_terminates_witness :
    (0 < 1) ∧
    (chunk_pages sampleHash sampleEnc [samplePage] 1 0 1).isSome = true :=
  ⟨by decide,
   (chunk_pages_terminates sampleHash sampleEnc [samplePage] 1 0 1
     (by decide)).1⟩

/-- C9: every chunk emitted by `chunk_pages` carries a `chunk_id` that is the
deterministic digest `_stable_chunk_id` of exactly its source path, page
number, section name, chunk index and text (hence byte-for-byte reproducible
across runs), and no two chunks of a single call share a `chunk_index`. -/
theorem chunk_id_reproducible (H : List Char → List Char) (enc : Encoding)
    (pages : List PageText) (ct ov mct : Nat) (cs : List Chunk)
    (h : chunk_pages H enc pages ct ov mct = some cs) :
    (∀ ch ∈ cs, ch.chunk_id = _stable_chunk_id H ch.source_path
      ch.page_number ch.section_name ch.chunk_index ch.text) ∧
    (cs.map Chunk.chunk_index).Nodup := by
  obtain ⟨h1, h2⟩ :=
    chunkPagesAux_inv H enc ct ov mct pages "Unknown".toList 0 cs h
  refine ⟨h2, ?_⟩
  rw [h1]
  exact List.nodup_range' 0 cs.length

/-- Witness for C9: the sample run's chunk indices are pairwise distinct. -/
theorem chunk_id_reproducible_witness :
    (chunk_pages sampleHash sampleEnc [samplePage] 1 0 1 =
      some sampleChunks) ∧
    (sampleChunks.map Chunk.chunk_index).Nodup :=
  ⟨by decide,
   (chunk_id_reproducible sampleHash sampleEnc [samplePage] 1 0 1
     sampleChunks (by decide)).2⟩

/-- C10: the chunk indices of the chunks emitted by a call to `chunk_pages`,
read in emission order, are exactly `0, 1, …, n-1`: consecutive, starting at
zero, with no gaps across page boundaries (the counter advances only on
emission). -/
theorem chunk_indices_consecutive (H : List Char → List Char)
    (enc : Encoding) (pages : List PageText) (ct ov mct : Nat)
    (cs : List Chunk) (h : chunk_pages H enc pages ct ov mct = some cs) :
    cs.map Chunk.chunk_index = List.range cs.length := by
  rw [List.range_eq_range']
  exact (chunkPagesAux_inv H enc ct ov mct pages "Unknown".toList 0 cs h).1

/-- Witness for C10: the sample run's indices are `[0, 1]`. -/
theorem chunk_indices_consecutive_witness :
    (chunk_pages sampleHash sampleEnc [samplePage] 1 0 1 =
      some sampleChunks) ∧
    sampleChunks.map Chunk.chunk_index = List.range sampleChunks.length :=
  ⟨by decide,
   chunk_indices_consecutive sampleHash sampleEnc [samplePage] 1 0 1
     sampleChunks (by decide)⟩

end Rag
